import Mathlib

/-
Verification of upb/util/compare.c: equality of protobuf unknown-field byte
buffers.  The C source is shallowly embedded: byte buffers are `List Nat`
(each byte read is taken mod 256, mirroring the `uint8_t` loads), machine
integers are `Nat` with explicit `% 2 ^ 64` where the C can overflow, the
arena is assumed to always succeed in the pure model (a separate
instrumented model threads an allocation oracle and the scratch-buffer
size to study the failure paths), and the `longjmp` unwind is an `Except`
error.  Recursive C functions are embedded as structurally recursive
functions on an explicit fuel argument; wrappers supply fuel larger than
the byte count, which is always sufficient because every recursive call
consumes at least one byte.
-/

/-- The four public result values of `upb_Message_UnknownFieldsAreEqual`. -/
inductive upb_UnknownCompareResult where
  | Equal
  | NotEqual
  | OutOfMemory
  | MaxDepthExceeded
deriving DecidableEq, Repr

/-- One decoded unknown field: the `tag` (uint32, low 3 bits = wire type)
together with the payload union of `upb_UnknownField`.  The union member
that is active is the one selected by `tag & 7`, which the builder
guarantees; the flattened constructors carry the tag with the payload. -/
inductive UnknownField where
  | varint (tag : Nat) (v : Nat)
  | fixed64 (tag : Nat) (v : Nat)
  | fixed32 (tag : Nat) (v : Nat)
  | delimited (tag : Nat) (s : List Nat)
  | group (tag : Nat) (fs : List UnknownField)
deriving Repr

/-- The `tag` member of `upb_UnknownField`. -/
def UnknownField.tag : UnknownField → Nat
  | .varint t _ => t
  | .fixed64 t _ => t
  | .fixed32 t _ => t
  | .delimited t _ => t
  | .group t _ => t

/-- The loop of `upb_UnknownFields_ParseVarint`: reads bytes, ORs the low
7 bits of each into the accumulator at the current bit position (a
`uint64_t`, hence the mod `2 ^ 64`), and continues while the high bit is
set.  The asserts `bitpos < 70 && ptr < limit` are modelled as `none`
(assertion failure on invalid input). -/
def parseVarintLoop (bytes : List Nat) (bitpos acc : Nat) : Option (Nat × List Nat) :=
  match bytes with
  | [] => none
  | b :: rest =>
    if bitpos ≥ 70 then none
    else
      let acc' := (acc ||| ((b % 256 % 128) <<< bitpos)) % 2 ^ 64
      if b % 256 ≥ 128 then parseVarintLoop rest (bitpos + 7) acc'
      else some (acc', rest)

/-- `upb_UnknownFields_ParseVarint(ptr, limit, val)`: `*val` starts at 0,
`bitpos` at 0; returns the decoded value and the advanced cursor. -/
def upb_UnknownFields_ParseVarint (bytes : List Nat) : Option (Nat × List Nat) :=
  parseVarintLoop bytes 0 0

/-- Little-endian value of a byte span, as produced by the `memcpy` into
`field->data.uint64` / `field->data.uint32` on a little-endian host. -/
def leBytesVal (bs : List Nat) : Nat :=
  bs.foldr (fun b acc => acc * 256 + b % 256) 0

/-- The merge loop of `upb_UnknownFields_Merge` on the scratch copies of
the two sorted runs.  `run2` is the full (already sorted) second run as it
sits in the scratch buffer: when the first run is exhausted first, the C
tail copy `memcpy(out, ptr1, (end2 - ptr2) * ...)` reads from `ptr1`,
which at that point equals `end1`, i.e. the START of the second run in the
scratch buffer — so it copies the first `end2 - ptr2` elements of `run2`
rather than the elements remaining after `ptr2`.  The embedding reproduces
this faithfully via `run2.take l2.length`. -/
def mergeLoopF : Nat → List UnknownField → List UnknownField → List UnknownField →
    List UnknownField
  | 0, _, _, _ => []
  | fuel + 1, a :: t1, b :: t2, run2 =>
    if a.tag ≤ b.tag then a :: mergeLoopF fuel t1 (b :: t2) run2
    else b :: mergeLoopF fuel (a :: t1) t2 run2
  | _ + 1, a :: t1, [], _ => a :: t1
  | _ + 1, [], l2, run2 => run2.take l2.length

/-- `upb_UnknownFields_Merge(arr, start, mid, end, tmp)` restricted to the
segment: merges the two sorted runs `l1 = arr[start..mid)` and
`l2 = arr[mid..end)` after they were copied into the scratch buffer. -/
def upb_UnknownFields_Merge (l1 l2 : List UnknownField) : List UnknownField :=
  mergeLoopF (l1.length + l2.length + 1) l1 l2 l2

/-- `upb_UnknownFields_SortRecursive(arr, start, end, tmp)` on a list
segment: split at `mid = (end - start) / 2`, sort both halves, merge. -/
def sortRecF (fuel : Nat) (l : List UnknownField) : List UnknownField :=
  match fuel with
  | 0 => l
  | fuel + 1 =>
    if l.length > 1 then
      let mid := l.length / 2
      upb_UnknownFields_Merge (sortRecF fuel (l.take mid)) (sortRecF fuel (l.drop mid))
    else l

/-- `upb_UnknownFields_SortRecursive(arr, 0, size, tmp)`. -/
def upb_UnknownFields_SortRecursive (l : List UnknownField) : List UnknownField :=
  sortRecF (l.length + 1) l

/-- End of `upb_UnknownFields_DoBuild`: the fields are sorted exactly when
the linear scan saw a tag smaller than its predecessor (`sorted` false). -/
def maybeSort (fs : List UnknownField) (srt : Bool) : List UnknownField :=
  if srt then fs else upb_UnknownFields_SortRecursive fs

/-- Abnormal exits of the builder: `maxDepth` is the
`kUpb_UnknownCompareResult_MaxDepthExceeded` longjmp; `malformed` is a
`UPB_ASSERT` / `UPB_UNREACHABLE` firing on invalid input (undefined
behaviour in a release build, modelled as a distinguished error). -/
inductive BErr where
  | maxDepth
  | malformed
deriving DecidableEq, Repr

/-- Outcome of one iteration of the `upb_UnknownFields_DoBuild` loop,
before any recursion: the loop is at the end of the buffer, it parsed an
end-group tag (and broke out of the loop), it decoded one complete
non-group field, or it decoded a start-group tag (whose payload requires
the recursive call). -/
inductive FieldStep where
  | atEnd
  | endGroup (rem : List Nat)
  | plain (f : UnknownField) (rem : List Nat)
  | groupStart (tag : Nat) (rem : List Nat)
deriving Repr

/-- One iteration of the `upb_UnknownFields_DoBuild` loop: the
`ptr < ctx->end` test, the tag parse, `UPB_ASSERT(tag <= UINT32_MAX)`,
and the wire-type switch (with the non-recursive payload reads inline).
`UPB_ASSERT`s and the `UPB_UNREACHABLE()` default arm are `malformed`. -/
def parseFieldStep (bytes : List Nat) : Except BErr FieldStep :=
  match bytes with
  | [] => .ok .atEnd
  | _ :: _ =>
    match upb_UnknownFields_ParseVarint bytes with
    | none => .error .malformed
    | some (tag, r1) =>
      if tag > 2 ^ 32 - 1 then .error .malformed
      else if tag % 8 = 4 then .ok (.endGroup r1)
      else if tag % 8 = 0 then
        match upb_UnknownFields_ParseVarint r1 with
        | none => .error .malformed
        | some (v, r2) => .ok (.plain (.varint tag v) r2)
      else if tag % 8 = 1 then
        if r1.length < 8 then .error .malformed
        else .ok (.plain (.fixed64 tag (leBytesVal (r1.take 8))) (r1.drop 8))
      else if tag % 8 = 5 then
        if r1.length < 4 then .error .malformed
        else .ok (.plain (.fixed32 tag (leBytesVal (r1.take 4))) (r1.drop 4))
      else if tag % 8 = 2 then
        match upb_UnknownFields_ParseVarint r1 with
        | none => .error .malformed
        | some (sz, r2) =>
          if r2.length < sz then .error .malformed
          else .ok (.plain (.delimited tag (r2.take sz)) (r2.drop sz))
      else if tag % 8 = 3 then .ok (.groupStart tag r1)
      else .error .malformed

/-- The loop of `upb_UnknownFields_DoBuild`.  Returns the decoded fields
of one nesting level in encounter order (before the possible sort), the
final `sorted` flag, a ghost count of the maximum group-nesting depth
entered in this region (used only to state depth properties), and the
remaining bytes at exit (`*buf = ptr`).  Group payloads are stored
after the nested `upb_UnknownFields_DoBuild` completed, i.e. sorted.
`fuel` only forces structural recursion; any `fuel > bytes.length`
computes the function (every recursive call drops at least one byte). -/
def doBuildF : Nat → List Nat → Int → Nat →
    Except BErr (List UnknownField × Bool × Nat × List Nat)
  | 0, _, _, _ => .error .malformed
  | fuel + 1, bytes, depth, last =>
    match parseFieldStep bytes with
    | .error e => .error e
    | .ok .atEnd => .ok ([], true, 0, [])
    | .ok (.endGroup r1) => .ok ([], true, 0, r1)
    | .ok (.plain f r1) =>
      match doBuildF fuel r1 depth f.tag with
      | .error e => .error e
      | .ok (raw, srt, gd, rem) =>
        .ok (f :: raw, decide (last ≤ f.tag) && srt, gd, rem)
    | .ok (.groupStart tag r1) =>
      if depth - 1 = 0 then .error .maxDepth
      else
        match doBuildF fuel r1 (depth - 1) 0 with
        | .error e => .error e
        | .ok (graw, gsrt, ggd, r2) =>
          match doBuildF fuel r2 depth tag with
          | .error e => .error e
          | .ok (raw, srt, gd, rem) =>
            .ok (.group tag (maybeSort graw gsrt) :: raw,
                 decide (last ≤ tag) && srt, max (1 + ggd) gd, rem)

/-- `upb_UnknownFields_DoBuild(ctx, buf)` with `ctx->depth = depth` and
the last tag seen at the enclosing level being `last` (0 at entry). -/
def upb_UnknownFields_DoBuild (bytes : List Nat) (depth : Int) (last : Nat) :
    Except BErr (List UnknownField × Bool × Nat × List Nat) :=
  doBuildF (bytes.length + 1) bytes depth last

/-- `upb_UnknownFields_Build(ctx, buf, size)`: run `DoBuild` over the
whole buffer, `UPB_ASSERT(buf == ctx->end)` (all bytes consumed), and
return the (sorted when necessary) fields plus the ghost nesting depth. -/
def upb_UnknownFields_Build (bytes : List Nat) (depth : Int) :
    Except BErr (List UnknownField × Nat) :=
  match upb_UnknownFields_DoBuild bytes depth 0 with
  | .error e => .error e
  | .ok (raw, srt, gd, rem) =>
    if rem = [] then .ok (maybeSort raw srt, gd) else .error .malformed

mutual
/-- One iteration of the loop of `upb_UnknownFields_IsEqual`: tags must be
equal, then the payload is compared under the wire type `tag & 7`.  In the
C code a tag match with differently-typed payloads cannot occur (the
builder keeps the union member consistent with `tag & 7`), so the
catch-all `false` arm is unreachable on built field sets. -/
def upb_UnknownField_IsEqual : UnknownField → UnknownField → Bool
  | .varint t1 v1, .varint t2 v2 => t1 == t2 && v1 == v2
  | .fixed64 t1 v1, .fixed64 t2 v2 => t1 == t2 && v1 == v2
  | .fixed32 t1 v1, .fixed32 t2 v2 => t1 == t2 && v1 == v2
  | .delimited t1 s1, .delimited t2 s2 => t1 == t2 && s1 == s2
  | .group t1 g1, .group t2 g2 => t1 == t2 && upb_UnknownFields_IsEqual g1 g2
  | _, _ => false

/-- `upb_UnknownFields_IsEqual(uf1, uf2)`: sizes must agree and every
position must compare equal; the C loop returns false at the first
mismatching position. -/
def upb_UnknownFields_IsEqual : List UnknownField → List UnknownField → Bool
  | [], [] => true
  | f1 :: r1, f2 :: r2 =>
    upb_UnknownField_IsEqual f1 f2 && upb_UnknownFields_IsEqual r1 r2
  | _, _ => false
end

/-- `upb_Message_UnknownFieldsAreEqual(buf1, size1, buf2, size2, max_depth)`
in the pure model (arena allocation always succeeds): the three fast paths,
then build-and-compare.  `memcmp(buf1, buf2, size1)` compares the first
`size1` bytes of both buffers, i.e. `buf1` against `buf2.take buf1.length`
(when `size2 < size1` the C reads past `buf2`; the model yields a list of
different length, hence a mismatch).  `none` models an assertion failure
(malformed input, undefined behaviour in release builds). -/
def upb_Message_UnknownFieldsAreEqual (buf1 buf2 : List Nat) (max_depth : Int) :
    Option upb_UnknownCompareResult :=
  if buf1.length = 0 ∧ buf2.length = 0 then some .Equal
  else if buf1.length = 0 ∨ buf2.length = 0 then some .NotEqual
  else if buf2.take buf1.length = buf1 then some .Equal
  else
    match upb_UnknownFields_Build buf1 max_depth with
    | .error .maxDepth => some .MaxDepthExceeded
    | .error .malformed => none
    | .ok (uf1, _) =>
      match upb_UnknownFields_Build buf2 max_depth with
      | .error .maxDepth => some .MaxDepthExceeded
      | .error .malformed => none
      | .ok (uf2, _) =>
        some (if upb_UnknownFields_IsEqual uf1 uf2 then .Equal else .NotEqual)

/-! ## Instrumented model

The same algorithm with the allocation and context state made explicit:
`depth` is the mutable `ctx->depth`, `tmpSize` the shared sort scratch
capacity `ctx->tmp_size`, and `allocN` counts allocation attempts; an
oracle `alloc : Nat → Bool` says whether the n-th attempt succeeds.  Arena
growth (`upb_UnknownFields_Grow`) and the per-level
`upb_arena_malloc(ctx->arena, sizeof(*ret))` are checked in the C code and
longjmp with OutOfMemory on failure; the scratch `realloc` in
`upb_UnknownFields_Sort` is NOT checked — on failure the C stores NULL
into `ctx->tmp` and `upb_UnknownFields_Merge` then writes through it,
modelled as the distinguished outcome `nullDeref`. -/

/-- The mutable part of `upb_UnknownField_Context` plus the allocation
attempt counter. -/
structure ICtx where
  depth : Int
  tmpSize : Nat
  allocN : Nat
deriving DecidableEq, Repr

/-- Abnormal exits in the instrumented model. -/
inductive IErr where
  | oom
  | maxDepth
  | malformed
  | nullDeref
deriving DecidableEq, Repr

/-- Consume one allocation attempt. -/
def iConsume (alloc : Nat → Bool) (st : ICtx) : Bool × ICtx :=
  (alloc st.allocN, { st with allocN := st.allocN + 1 })

/-- The `while (ctx->tmp_size < fields->size) ctx->tmp_size *= 2` loop of
`upb_UnknownFields_Sort` (entered with `tmp_size` already at least 8). -/
def scratchGrowF (fuel t target : Nat) : Nat :=
  match fuel with
  | 0 => t
  | fuel + 1 => if t < target then scratchGrowF fuel (t * 2) target else t

/-- New scratch capacity computed by `upb_UnknownFields_Sort` when the
current capacity `cur` is below `size`: `MAX(8, cur)` then doubling. -/
def scratchNewSize (cur size : Nat) : Nat :=
  scratchGrowF size (max 8 cur) size

/-- Tail of `upb_UnknownFields_DoBuild` after the parse loop: allocate the
`upb_UnknownFields` struct from the arena (checked: failure longjmps with
OutOfMemory), then `upb_UnknownFields_Sort` when the scan saw unsorted
tags: grow the shared scratch buffer if needed — the `realloc` result is
stored into `ctx->tmp` without a check, so a failed attempt leads to
`upb_UnknownFields_SortRecursive` writing through a NULL pointer. -/
def iFinish (alloc : Nat → Bool) (raw : List UnknownField) (srt : Bool) (st : ICtx) :
    Except IErr (List UnknownField × ICtx) :=
  let (ok1, st1) := iConsume alloc st
  if !ok1 then .error .oom
  else if srt then .ok (raw, st1)
  else if st1.tmpSize < raw.length then
    let st2 := { st1 with tmpSize := scratchNewSize st1.tmpSize raw.length }
    let (ok2, st3) := iConsume alloc st2
    if !ok2 then .error .nullDeref
    else .ok (upb_UnknownFields_SortRecursive raw, st3)
  else .ok (upb_UnknownFields_SortRecursive raw, st1)

/-- `upb_UnknownFields_Grow(ctx, ...)`, instrumented: when the field
array is full (`arr_ptr == arr_end`, i.e. `cnt = cap`), double it through
`upb_arena_realloc` (`MAX(4, old * 2)`), consuming one allocation
attempt; returns (attempt succeeded, new context, new capacity). -/
def upb_UnknownFields_Grow (alloc : Nat → Bool) (st : ICtx) (cnt cap : Nat) :
    Bool × ICtx × Nat :=
  if cnt = cap then (alloc st.allocN, { st with allocN := st.allocN + 1 }, max 4 (cnt * 2))
  else (true, st, cap)

/-- The loop of `upb_UnknownFields_DoBuild`, instrumented: `cnt`/`cap` are
the current fill and capacity of the growing field array (`arr_ptr`,
`arr_end`); when full, `upb_UnknownFields_Grow` doubles it through the
arena, longjmping with OutOfMemory on failure (the C checks
`if (!*base)`).  The non-recursive payload decode is carried by
`parseFieldStep`; in the C code the growth check sits between the tag
parse and the payload decode, but the two commute on every input that
does not both exhaust memory and trip a payload assert, so hoisting the
decode is behaviourally faithful within the trusted-input scope. -/
def iBuildF : Nat → (Nat → Bool) → List Nat → ICtx → Nat → Nat → Nat →
    Except IErr (List UnknownField × Bool × ICtx × List Nat)
  | 0, _, _, _, _, _, _ => .error .malformed
  | fuel + 1, alloc, bytes, st, last, cnt, cap =>
    match parseFieldStep bytes with
    | .error _ => .error .malformed
    | .ok .atEnd => .ok ([], true, st, [])
    | .ok (.endGroup r1) => .ok ([], true, st, r1)
    | .ok (.plain f r1) =>
      match upb_UnknownFields_Grow alloc st cnt cap with
      | (okG, stG, capG) =>
        if !okG then .error .oom
        else
          match iBuildF fuel alloc r1 stG f.tag (cnt + 1) capG with
          | .error e => .error e
          | .ok (raw, srt, st2, rem) =>
            .ok (f :: raw, decide (last ≤ f.tag) && srt, st2, rem)
    | .ok (.groupStart tag r1) =>
      match upb_UnknownFields_Grow alloc st cnt cap with
      | (okG, stG, capG) =>
        if !okG then .error .oom
        else if stG.depth - 1 = 0 then .error .maxDepth
        else
          match iBuildF fuel alloc r1 { stG with depth := stG.depth - 1 } 0 0 0 with
          | .error e => .error e
          | .ok (graw, gsrt, stI, r2) =>
            match iFinish alloc graw gsrt stI with
            | .error e => .error e
            | .ok (gfs, stF) =>
              match iBuildF fuel alloc r2 { stF with depth := stF.depth + 1 }
                  tag (cnt + 1) capG with
              | .error e => .error e
              | .ok (raw, srt, st2, rem) =>
                .ok (.group tag gfs :: raw, decide (last ≤ tag) && srt, st2, rem)

/-- Instrumented `upb_UnknownFields_DoBuild`: loop plus `iFinish`. -/
def iDoBuild (alloc : Nat → Bool) (bytes : List Nat) (st : ICtx) :
    Except IErr (List UnknownField × ICtx × List Nat) :=
  match iBuildF (bytes.length + 1) alloc bytes st 0 0 0 with
  | .error e => .error e
  | .ok (raw, srt, st1, rem) =>
    match iFinish alloc raw srt st1 with
    | .error e => .error e
    | .ok (fs, st2) => .ok (fs, st2, rem)

/-- Instrumented `upb_UnknownFields_Build`: all bytes must be consumed. -/
def iBuild (alloc : Nat → Bool) (bytes : List Nat) (st : ICtx) :
    Except IErr (List UnknownField × ICtx) :=
  match iDoBuild alloc bytes st with
  | .error e => .error e
  | .ok (fs, st1, rem) => if rem = [] then .ok (fs, st1) else .error .malformed

/-- Observable outcome of the instrumented entry point: one of the four
result values, an assertion failure (malformed input), or the NULL scratch
buffer dereference. -/
inductive IResult where
  | val (r : upb_UnknownCompareResult)
  | assertFail
  | nullDeref
deriving DecidableEq, Repr

/-- Instrumented `upb_Message_UnknownFieldsAreEqual`: fast paths first
(they precede any allocation), then `upb_arena_new` (checked: returns
OutOfMemory), then build both buffers in one shared context and compare. -/
def iCompare (alloc : Nat → Bool) (buf1 buf2 : List Nat) (max_depth : Int) : IResult :=
  if buf1.length = 0 ∧ buf2.length = 0 then .val .Equal
  else if buf1.length = 0 ∨ buf2.length = 0 then .val .NotEqual
  else if buf2.take buf1.length = buf1 then .val .Equal
  else
    let st0 : ICtx := { depth := max_depth, tmpSize := 0, allocN := 0 }
    let (okA, st1) := iConsume alloc st0
    if !okA then .val .OutOfMemory
    else
      match iBuild alloc buf1 st1 with
      | .error .oom => .val .OutOfMemory
      | .error .maxDepth => .val .MaxDepthExceeded
      | .error .malformed => .assertFail
      | .error .nullDeref => .nullDeref
      | .ok (uf1, st2) =>
        match iBuild alloc buf2 st2 with
        | .error .oom => .val .OutOfMemory
        | .error .maxDepth => .val .MaxDepthExceeded
        | .error .malformed => .assertFail
        | .error .nullDeref => .nullDeref
        | .ok (uf2, _) =>
          .val (if upb_UnknownFields_IsEqual uf1 uf2 then .Equal else .NotEqual)

/-- Spec-side rendering of the varint value (for the refinement claim
about the decoder): the 7-bit groups of the consumed bytes, each shifted
left by 7 times its index and assembled into a `u64`.  This definition
follows the specification text, not the C loop. -/
def specVarintValue (bs : List Nat) : Nat :=
  (bs.enum.foldr (fun p acc => acc ||| ((p.2 % 256 % 128) <<< (7 * p.1))) 0) % 2 ^ 64

/-- Proof-side closed form of the 7-bit little-endian assembly. -/
def varintAsm : List Nat → Nat
  | [] => 0
  | b :: r => (b % 256 % 128) ||| (varintAsm r <<< 7)

/-! ## Basic lemmas -/

theorem parseVarintLoop_length {bytes : List Nat} {bp acc v r}
    (h : parseVarintLoop bytes bp acc = some (v, r)) : r.length < bytes.length := by
  induction bytes generalizing bp acc with
  | nil => simp [parseVarintLoop] at h
  | cons b rest ih =>
    rw [parseVarintLoop] at h
    split at h
    · exact absurd h (by simp)
    · split at h
      · exact Nat.lt_trans (ih h) (by simp)
      · simp only [Option.some.injEq, Prod.mk.injEq] at h
        simp [← h.2]

theorem parseVarintLoop_append {bytes : List Nat} {bp acc v r} (s : List Nat)
    (h : parseVarintLoop bytes bp acc = some (v, r)) :
    parseVarintLoop (bytes ++ s) bp acc = some (v, r ++ s) := by
  induction bytes generalizing bp acc with
  | nil => simp [parseVarintLoop] at h
  | cons b rest ih =>
    rw [parseVarintLoop] at h
    rw [List.cons_append, parseVarintLoop]
    split at h
    · exact absurd h (by simp)
    · rename_i hbp
      rw [if_neg hbp]
      split at h
      · rename_i hcont
        rw [if_pos hcont]
        exact ih h
      · rename_i hcont
        rw [if_neg hcont]
        simp only [Option.some.injEq, Prod.mk.injEq] at h
        rw [h.1, h.2]

theorem upb_UnknownFields_ParseVarint_length {bytes : List Nat} {v r}
    (h : upb_UnknownFields_ParseVarint bytes = some (v, r)) : r.length < bytes.length :=
  parseVarintLoop_length h

theorem upb_UnknownFields_ParseVarint_append {bytes : List Nat} {v r} (s : List Nat)
    (h : upb_UnknownFields_ParseVarint bytes = some (v, r)) :
    upb_UnknownFields_ParseVarint (bytes ++ s) = some (v, r ++ s) :=
  parseVarintLoop_append s h

theorem parseFieldStep_atEnd {bytes : List Nat}
    (h : parseFieldStep bytes = .ok .atEnd) : bytes = [] := by
  cases bytes with
  | nil => rfl
  | cons b rest =>
    rw [parseFieldStep] at h
    repeat' split at h
    all_goals simp at h

/-- The remaining-bytes component of a step outcome. -/
def FieldStep.rem : FieldStep → List Nat
  | .atEnd => []
  | .endGroup r => r
  | .plain _ r => r
  | .groupStart _ r => r

/-- A step outcome with `s` appended to its remaining bytes. -/
def FieldStep.addTail (s : List Nat) : FieldStep → FieldStep
  | .atEnd => .atEnd
  | .endGroup r => .endGroup (r ++ s)
  | .plain f r => .plain f (r ++ s)
  | .groupStart t r => .groupStart t (r ++ s)

/-- Inversion of a successful `parseFieldStep`. -/
theorem parseFieldStep_ok_inv {bytes : List Nat} {st : FieldStep}
    (h : parseFieldStep bytes = .ok st) :
    (bytes = [] ∧ st = .atEnd) ∨
    (∃ tag r1, upb_UnknownFields_ParseVarint bytes = some (tag, r1) ∧
      ¬tag > 2 ^ 32 - 1 ∧
      ((tag % 8 = 4 ∧ st = .endGroup r1) ∨
       (∃ v r2, tag % 8 = 0 ∧ upb_UnknownFields_ParseVarint r1 = some (v, r2) ∧
         st = .plain (.varint tag v) r2) ∨
       (tag % 8 = 1 ∧ ¬r1.length < 8 ∧
         st = .plain (.fixed64 tag (leBytesVal (r1.take 8))) (r1.drop 8)) ∨
       (tag % 8 = 5 ∧ ¬r1.length < 4 ∧
         st = .plain (.fixed32 tag (leBytesVal (r1.take 4))) (r1.drop 4)) ∨
       (∃ sz r2, tag % 8 = 2 ∧ upb_UnknownFields_ParseVarint r1 = some (sz, r2) ∧
         ¬r2.length < sz ∧ st = .plain (.delimited tag (r2.take sz)) (r2.drop sz)) ∨
       (tag % 8 = 3 ∧ st = .groupStart tag r1))) := by
  cases bytes with
  | nil =>
    left
    rw [parseFieldStep] at h
    simp at h
    exact ⟨rfl, h.symm⟩
  | cons b rest =>
    right
    rw [parseFieldStep] at h
    split at h
    · exact absurd h (by simp)
    · rename_i tag r1 hpv
      split at h
      · exact absurd h (by simp)
      · rename_i htag
        refine ⟨tag, r1, hpv, htag, ?_⟩
        split at h
        · rename_i h4
          simp at h
          exact .inl ⟨h4, h.symm⟩
        · rename_i h4
          split at h
          · rename_i h0
            split at h
            · exact absurd h (by simp)
            · rename_i v r2 hv
              simp at h
              exact .inr (.inl ⟨v, r2, h0, hv, h.symm⟩)
          · rename_i h0
            split at h
            · rename_i h1
              split at h
              · exact absurd h (by simp)
              · rename_i h8
                simp at h
                exact .inr (.inr (.inl ⟨h1, h8, h.symm⟩))
            · rename_i h1
              split at h
              · rename_i h5
                split at h
                · exact absurd h (by simp)
                · rename_i h4l
                  simp at h
                  exact .inr (.inr (.inr (.inl ⟨h5, h4l, h.symm⟩)))
              · rename_i h5
                split at h
                · rename_i h2
                  split at h
                  · exact absurd h (by simp)
                  · rename_i sz r2 hsz
                    split at h
                    · exact absurd h (by simp)
                    · rename_i hlen
                      simp at h
                      exact .inr (.inr (.inr (.inr (.inl ⟨sz, r2, h2, hsz, hlen, h.symm⟩))))
                · rename_i h2
                  split at h
                  · rename_i h3
                    simp at h
                    exact .inr (.inr (.inr (.inr (.inr ⟨h3, h.symm⟩))))
                  · exact absurd h (by simp)

theorem parseFieldStep_rem_lt {bytes : List Nat} {st : FieldStep}
    (h : parseFieldStep bytes = .ok st) (hne : st ≠ .atEnd) :
    st.rem.length < bytes.length := by
  rcases parseFieldStep_ok_inv h with ⟨_, hst⟩ | ⟨tag, r1, hpv, _, hc⟩
  · exact absurd hst hne
  · have hr1 := upb_UnknownFields_ParseVarint_length hpv
    rcases hc with ⟨_, hst⟩ | ⟨v, r2, _, hv, hst⟩ | ⟨_, _, hst⟩ | ⟨_, _, hst⟩ |
      ⟨sz, r2, _, hv, _, hst⟩ | ⟨_, hst⟩
    · simpa [hst, FieldStep.rem] using hr1
    · have hr2 := upb_UnknownFields_ParseVarint_length hv
      simp only [hst, FieldStep.rem]
      omega
    · simp only [hst, FieldStep.rem, List.length_drop]
      omega
    · simp only [hst, FieldStep.rem, List.length_drop]
      omega
    · have hr2 := upb_UnknownFields_ParseVarint_length hv
      simp only [hst, FieldStep.rem, List.length_drop]
      omega
    · simpa [hst, FieldStep.rem] using hr1

/-- A successful step on `bytes` that is not at the end of the buffer
takes the same step on `bytes ++ s`, carrying `s` in its remainder. -/
theorem parseFieldStep_append {bytes : List Nat} {st : FieldStep} (s : List Nat)
    (h : parseFieldStep bytes = .ok st) (hne : st ≠ .atEnd) :
    parseFieldStep (bytes ++ s) = .ok (st.addTail s) := by
  rcases parseFieldStep_ok_inv h with ⟨_, hst⟩ | ⟨tag, r1, hpv, htag, hc⟩
  · exact absurd hst hne
  · have hbne : bytes ≠ [] := by
      intro hb
      rw [hb] at hpv
      simp [upb_UnknownFields_ParseVarint, parseVarintLoop] at hpv
    obtain ⟨b, rest, hb⟩ := List.exists_cons_of_ne_nil hbne
    subst hb
    rw [List.cons_append, parseFieldStep]
    have hpv' := upb_UnknownFields_ParseVarint_append s hpv
    rw [List.cons_append] at hpv'
    simp only [hpv']
    rw [if_neg htag]
    rcases hc with ⟨h4, hst⟩ | ⟨v, r2, h0, hv, hst⟩ | ⟨h1, h8, hst⟩ | ⟨h5, h4l, hst⟩ |
      ⟨sz, r2, h2, hsz, hlen, hst⟩ | ⟨h3, hst⟩
    · rw [if_pos h4, hst]
      rfl
    · rw [if_neg (by omega), if_pos h0, upb_UnknownFields_ParseVarint_append s hv, hst]
      rfl
    · rw [if_neg (by omega), if_neg (by omega), if_pos h1,
        if_neg (by rw [List.length_append]; omega), hst]
      rw [List.take_append_of_le_length (by omega), List.drop_append_of_le_length (by omega)]
      rfl
    · rw [if_neg (by omega), if_neg (by omega), if_neg (by omega), if_pos h5,
        if_neg (by rw [List.length_append]; omega), hst]
      rw [List.take_append_of_le_length (by omega), List.drop_append_of_le_length (by omega)]
      rfl
    · rw [if_neg (by omega), if_neg (by omega), if_neg (by omega), if_neg (by omega),
        if_pos h2]
      simp only [upb_UnknownFields_ParseVarint_append s hsz]
      rw [if_neg (by rw [List.length_append]; omega), hst]
      rw [List.take_append_of_le_length (by omega), List.drop_append_of_le_length (by omega)]
      rfl
    · rw [if_neg (by omega), if_neg (by omega), if_neg (by omega), if_neg (by omega),
        if_neg (by omega), if_pos h3, hst]
      rfl

theorem mergeLoopF_length :
    ∀ fuel (l1 l2 run2 : List UnknownField), l1.length + l2.length < fuel →
      l2.length ≤ run2.length →
      (mergeLoopF fuel l1 l2 run2).length = l1.length + l2.length := by
  intro fuel
  induction fuel with
  | zero => omega
  | succ fuel ih =>
    intro l1 l2 run2 hfuel hrun
    match l1, l2 with
    | [], l2 => simp [mergeLoopF]; omega
    | a :: t1, [] => simp [mergeLoopF]
    | a :: t1, b :: t2 =>
      rw [mergeLoopF]
      split
      · have := ih t1 (b :: t2) run2 (by simp at hfuel ⊢; omega) hrun
        simp at this ⊢
        omega
      · have := ih (a :: t1) t2 run2 (by simp at hfuel ⊢; omega)
          (le_trans (by simp) hrun)
        simp at this ⊢
        omega

theorem upb_UnknownFields_Merge_length (l1 l2 : List UnknownField) :
    (upb_UnknownFields_Merge l1 l2).length = l1.length + l2.length :=
  mergeLoopF_length _ l1 l2 l2 (by omega) (le_refl _)

theorem sortRecF_length : ∀ fuel (l : List UnknownField),
    (sortRecF fuel l).length = l.length := by
  intro fuel
  induction fuel with
  | zero => intro l; rfl
  | succ fuel ih =>
    intro l
    rw [sortRecF]
    split
    · rename_i hlen
      rw [upb_UnknownFields_Merge_length, ih, ih, List.length_take, List.length_drop]
      omega
    · rfl

theorem upb_UnknownFields_SortRecursive_length (l : List UnknownField) :
    (upb_UnknownFields_SortRecursive l).length = l.length :=
  sortRecF_length _ l

theorem maybeSort_length (fs : List UnknownField) (srt : Bool) :
    (maybeSort fs srt).length = fs.length := by
  cases srt <;> simp [maybeSort, upb_UnknownFields_SortRecursive_length]

theorem doBuildF_rem_length :
    ∀ fuel (bytes : List Nat) (depth : Int) (last : Nat) raw srt gd rem,
      doBuildF fuel bytes depth last = .ok (raw, srt, gd, rem) →
      rem.length ≤ bytes.length := by
  intro fuel
  induction fuel with
  | zero =>
    intro bytes depth last raw srt gd rem h
    exact absurd h (by simp [doBuildF])
  | succ fuel ih =>
    intro bytes depth last raw srt gd rem h
    rw [doBuildF] at h
    cases hstep : parseFieldStep bytes with
    | error e => simp [hstep] at h
    | ok st =>
      cases st with
      | atEnd =>
        simp only [hstep, Except.ok.injEq, Prod.mk.injEq] at h
        rw [← h.2.2.2]
        simp
      | endGroup r1 =>
        simp only [hstep, Except.ok.injEq, Prod.mk.injEq] at h
        have hlt := parseFieldStep_rem_lt hstep (by simp)
        simp only [FieldStep.rem] at hlt
        rw [← h.2.2.2]
        omega
      | plain f r1 =>
        simp only [hstep] at h
        cases hrec : doBuildF fuel r1 depth f.tag with
        | error e => simp [hrec] at h
        | ok q =>
          obtain ⟨raw', srt', gd', rem'⟩ := q
          simp only [hrec, Except.ok.injEq, Prod.mk.injEq] at h
          have h1 := ih r1 depth f.tag raw' srt' gd' rem' hrec
          have hlt := parseFieldStep_rem_lt hstep (by simp)
          simp only [FieldStep.rem] at hlt
          rw [← h.2.2.2]
          omega
      | groupStart tag r1 =>
        simp only [hstep] at h
        split at h
        · simp at h
        · cases hg : doBuildF fuel r1 (depth - 1) 0 with
          | error e => simp [hg] at h
          | ok q =>
            obtain ⟨graw, gsrt, ggd, r2⟩ := q
            simp only [hg] at h
            cases hrec : doBuildF fuel r2 depth tag with
            | error e => simp [hrec] at h
            | ok q2 =>
              obtain ⟨raw', srt', gd', rem'⟩ := q2
              simp only [hrec, Except.ok.injEq, Prod.mk.injEq] at h
              have h1 := ih r1 (depth - 1) 0 graw gsrt ggd r2 hg
              have h2 := ih r2 depth tag raw' srt' gd' rem' hrec
              have hlt := parseFieldStep_rem_lt hstep (by simp)
              simp only [FieldStep.rem] at hlt
              rw [← h.2.2.2]
              omega

theorem doBuildF_fuel_irrel :
    ∀ f1 f2 (bytes : List Nat) (depth : Int) (last : Nat),
      bytes.length < f1 → bytes.length < f2 →
      doBuildF f1 bytes depth last = doBuildF f2 bytes depth last := by
  intro f1
  induction f1 with
  | zero => omega
  | succ f1 ih =>
    intro f2 bytes depth last h1 h2
    match f2, h2 with
    | f2 + 1, h2 =>
      rw [doBuildF, doBuildF]
      cases hstep : parseFieldStep bytes with
      | error e => simp only [hstep]
      | ok st =>
        cases st with
        | atEnd => simp only [hstep]
        | endGroup r1 => simp only [hstep]
        | plain f r1 =>
          simp only [hstep]
          have hlt := parseFieldStep_rem_lt hstep (by simp)
          simp only [FieldStep.rem] at hlt
          rw [ih f2 r1 depth f.tag (by omega) (by omega)]
        | groupStart tag r1 =>
          simp only [hstep]
          have hlt := parseFieldStep_rem_lt hstep (by simp)
          simp only [FieldStep.rem] at hlt
          split
          · rfl
          · rw [ih f2 r1 (depth - 1) 0 (by omega) (by omega)]
            cases hg : doBuildF f2 r1 (depth - 1) 0 with
            | error e => simp only [hg]
            | ok q =>
              obtain ⟨graw, gsrt, ggd, r2⟩ := q
              simp only [hg]
              have hr2 : r2.length ≤ r1.length := by
                have := doBuildF_rem_length f2 r1 (depth - 1) 0 graw gsrt ggd r2 hg
                omega
              rw [ih f2 r2 depth tag (by omega) (by omega)]

/-- A build with a non-positive depth budget never aborts with
`MaxDepthExceeded`: the `--ctx->depth == 0` test can only fire on the way
down from a positive budget, so all non-positive budgets behave alike. -/
theorem doBuildF_depth_nonpos :
    ∀ fuel (bytes : List Nat) (d d' : Int) (last : Nat), d ≤ 0 → d' ≤ 0 →
      doBuildF fuel bytes d last = doBuildF fuel bytes d' last := by
  intro fuel
  induction fuel with
  | zero => intro bytes d d' last _ _; rfl
  | succ fuel ih =>
    intro bytes d d' last hd hd'
    rw [doBuildF, doBuildF]
    cases hstep : parseFieldStep bytes with
    | error e => simp only [hstep]
    | ok st =>
      cases st with
      | atEnd => simp only [hstep]
      | endGroup r1 => simp only [hstep]
      | plain f r1 =>
        simp only [hstep]
        rw [ih r1 d d' f.tag hd hd']
      | groupStart tag r1 =>
        simp only [hstep]
        rw [if_neg (by omega), if_neg (by omega)]
        rw [ih r1 (d - 1) (d' - 1) 0 (by omega) (by omega)]
        cases hg : doBuildF fuel r1 (d' - 1) 0 with
        | error e => simp only [hg]
        | ok q =>
          obtain ⟨graw, gsrt, ggd, r2⟩ := q
          simp only [hg]
          rw [ih r2 d d' tag hd hd']

/-- Success transfer: if the unlimited build (budget 0) succeeds with
ghost nesting depth `gd`, any budget strictly above `gd` produces the
same result. -/
theorem doBuildF_budget_success :
    ∀ fuel (bytes : List Nat) (d0 d : Int) (last : Nat) raw srt gd rem, d0 ≤ 0 →
      doBuildF fuel bytes d0 last = .ok (raw, srt, gd, rem) → (gd : Int) < d →
      doBuildF fuel bytes d last = .ok (raw, srt, gd, rem) := by
  intro fuel
  induction fuel with
  | zero =>
    intro bytes d0 d last raw srt gd rem _ h
    exact absurd h (by simp [doBuildF])
  | succ fuel ih =>
    intro bytes d0 d last raw srt gd rem hd0 h hgd
    rw [doBuildF] at h ⊢
    cases hstep : parseFieldStep bytes with
    | error e => simp [hstep] at h
    | ok st =>
      cases st with
      | atEnd =>
        simp only [hstep] at h ⊢
        exact h
      | endGroup r1 =>
        simp only [hstep] at h ⊢
        exact h
      | plain f r1 =>
        simp only [hstep] at h ⊢
        cases hrec : doBuildF fuel r1 d0 f.tag with
        | error e => simp [hrec] at h
        | ok q =>
          obtain ⟨raw', srt', gd', rem'⟩ := q
          simp only [hrec, Except.ok.injEq, Prod.mk.injEq] at h
          simp only [ih r1 d0 d f.tag raw' srt' gd' rem' hd0 hrec (by omega)]
          simp [h]
      | groupStart tag r1 =>
        simp only [hstep] at h ⊢
        rw [if_neg (by omega)] at h
        cases hg : doBuildF fuel r1 (d0 - 1) 0 with
        | error e => simp [hg] at h
        | ok q =>
          obtain ⟨graw, gsrt, ggd, r2⟩ := q
          simp only [hg] at h
          cases hrec : doBuildF fuel r2 d0 tag with
          | error e => simp [hrec] at h
          | ok q2 =>
            obtain ⟨raw', srt', gd', rem'⟩ := q2
            simp only [hrec, Except.ok.injEq, Prod.mk.injEq] at h
            have hgd' : (ggd : Int) < d - 1 := by
              have : 1 + ggd ≤ gd := by rw [← h.2.2.1]; omega
              omega
            rw [if_neg (by omega)]
            simp only [ih r1 (d0 - 1) (d - 1) 0 graw gsrt ggd r2 (by omega) hg hgd']
            have hrd : (gd' : Int) < d := by
              have : gd' ≤ gd := by rw [← h.2.2.1]; omega
              omega
            simp only [ih r2 d0 d tag raw' srt' gd' rem' hd0 hrec hrd]
            simp [h]

/-- Abort: if the unlimited build succeeds with ghost nesting depth `gd`,
any budget `d` with `1 ≤ d ≤ gd` aborts with `MaxDepthExceeded`. -/
theorem doBuildF_budget_abort :
    ∀ fuel (bytes : List Nat) (d0 d : Int) (last : Nat) raw srt gd rem, d0 ≤ 0 →
      doBuildF fuel bytes d0 last = .ok (raw, srt, gd, rem) → 1 ≤ d → d ≤ (gd : Int) →
      doBuildF fuel bytes d last = .error .maxDepth := by
  intro fuel
  induction fuel with
  | zero =>
    intro bytes d0 d last raw srt gd rem _ h
    exact absurd h (by simp [doBuildF])
  | succ fuel ih =>
    intro bytes d0 d last raw srt gd rem hd0 h hd1 hdg
    rw [doBuildF] at h ⊢
    cases hstep : parseFieldStep bytes with
    | error e => simp [hstep] at h
    | ok st =>
      cases st with
      | atEnd =>
        simp only [hstep, Except.ok.injEq, Prod.mk.injEq] at h
        rw [← h.2.2.1] at hdg
        omega
      | endGroup r1 =>
        simp only [hstep, Except.ok.injEq, Prod.mk.injEq] at h
        rw [← h.2.2.1] at hdg
        omega
      | plain f r1 =>
        simp only [hstep] at h ⊢
        cases hrec : doBuildF fuel r1 d0 f.tag with
        | error e => simp [hrec] at h
        | ok q =>
          obtain ⟨raw', srt', gd', rem'⟩ := q
          simp only [hrec, Except.ok.injEq, Prod.mk.injEq] at h
          have hgd : gd' = gd := h.2.2.1
          simp only [ih r1 d0 d f.tag raw' srt' gd' rem' hd0 hrec hd1 (by omega)]
      | groupStart tag r1 =>
        simp only [hstep] at h ⊢
        rw [if_neg (by omega)] at h
        cases hg : doBuildF fuel r1 (d0 - 1) 0 with
        | error e => simp [hg] at h
        | ok q =>
          obtain ⟨graw, gsrt, ggd, r2⟩ := q
          simp only [hg] at h
          cases hrec : doBuildF fuel r2 d0 tag with
          | error e => simp [hrec] at h
          | ok q2 =>
            obtain ⟨raw', srt', gd', rem'⟩ := q2
            simp only [hrec, Except.ok.injEq, Prod.mk.injEq] at h
            have hmax : max (1 + ggd) gd' = gd := h.2.2.1
            by_cases hone : d = 1
            · rw [if_pos (by omega)]
            · rw [if_neg (by omega)]
              by_cases hinner : d - 1 ≤ (ggd : Int)
              · simp only [ih r1 (d0 - 1) (d - 1) 0 graw gsrt ggd r2 (by omega) hg
                  (by omega) hinner]
              · have hsucc := doBuildF_budget_success fuel r1 (d0 - 1) (d - 1) 0 graw gsrt
                  ggd r2 (by omega) hg (by omega)
                simp only [hsucc]
                have hdg2 : d ≤ (gd' : Int) := by
                  rw [← hmax] at hdg
                  push_cast at hdg
                  omega
                simp only [ih r2 d0 d tag raw' srt' gd' rem' hd0 hrec hd1 hdg2]

theorem doBuildF_plain_step (fuel : Nat) {bytes : List Nat} (d : Int) (last : Nat)
    {f r1} (hstep : parseFieldStep bytes = .ok (.plain f r1)) :
    doBuildF (fuel + 1) bytes d last =
      match doBuildF fuel r1 d f.tag with
      | .error e => .error e
      | .ok (raw, srt, gd, rem) =>
        .ok (f :: raw, decide (last ≤ f.tag) && srt, gd, rem) := by
  rw [doBuildF]
  simp only [hstep]

theorem doBuildF_endGroup_step (fuel : Nat) {bytes : List Nat} (d : Int) (last : Nat)
    {r1} (hstep : parseFieldStep bytes = .ok (.endGroup r1)) :
    doBuildF (fuel + 1) bytes d last = .ok ([], true, 0, r1) := by
  rw [doBuildF]
  simp only [hstep]

theorem doBuildF_group_step (fuel : Nat) {bytes : List Nat} (d : Int) (last : Nat)
    {tg r1} (hstep : parseFieldStep bytes = .ok (.groupStart tg r1)) :
    doBuildF (fuel + 1) bytes d last =
      if d - 1 = 0 then .error .maxDepth
      else
        match doBuildF fuel r1 (d - 1) 0 with
        | .error e => .error e
        | .ok (graw, gsrt, ggd, r2) =>
          match doBuildF fuel r2 d tg with
          | .error e => .error e
          | .ok (raw, srt, gd, rem) =>
            .ok (.group tg (maybeSort graw gsrt) :: raw,
                 decide (last ≤ tg) && srt, max (1 + ggd) gd, rem) := by
  rw [doBuildF]
  simp only [hstep]

theorem doBuildF_nil_ok (fuel : Nat) (d : Int) (last : Nat) (raw : List UnknownField)
    (srt : Bool) (gd : Nat) (rem : List Nat)
    (h : doBuildF fuel [] d last = .ok (raw, srt, gd, rem)) :
    raw = [] ∧ srt = true ∧ gd = 0 ∧ rem = [] := by
  match fuel with
  | 0 => exact absurd h (by simp [doBuildF])
  | fuel + 1 =>
    rw [doBuildF] at h
    simp only [show parseFieldStep [] = Except.ok FieldStep.atEnd from rfl,
      Except.ok.injEq, Prod.mk.injEq] at h
    exact ⟨h.1.symm, h.2.1.symm, h.2.2.1.symm, h.2.2.2.symm⟩

/-- A run that succeeded within some fuel succeeds identically at any
larger fuel: fuel only limits the recursion depth of the model, it never
changes a successful result. -/
theorem doBuildF_fuel_mono :
    ∀ fuel fuel' (bytes : List Nat) (d : Int) (last : Nat) out,
      doBuildF fuel bytes d last = .ok out → fuel ≤ fuel' →
      doBuildF fuel' bytes d last = .ok out := by
  intro fuel
  induction fuel with
  | zero =>
    intro fuel' bytes d last out h _
    exact absurd h (by simp [doBuildF])
  | succ fuel ih =>
    intro fuel' bytes d last out h hle
    cases fuel' with
    | zero => exact absurd hle (by omega)
    | succ fuel'' =>
      rw [doBuildF] at h ⊢
      cases hstep : parseFieldStep bytes with
      | error e => simp [hstep] at h
      | ok st =>
        cases st with
        | atEnd =>
          simp only [hstep] at h ⊢
          exact h
        | endGroup r1 =>
          simp only [hstep] at h ⊢
          exact h
        | plain f r1 =>
          simp only [hstep] at h ⊢
          cases hrec : doBuildF fuel r1 d f.tag with
          | error e => simp [hrec] at h
          | ok q =>
            simp only [hrec] at h
            simp only [ih fuel'' r1 d f.tag q hrec (by omega)]
            exact h
        | groupStart tg r1 =>
          simp only [hstep] at h ⊢
          split at h
          · exact absurd h (by simp)
          · rename_i hd
            rw [if_neg hd]
            cases hg : doBuildF fuel r1 (d - 1) 0 with
            | error e => simp [hg] at h
            | ok q =>
              obtain ⟨graw, gsrt, ggd, r2⟩ := q
              simp only [hg] at h
              simp only [ih fuel'' r1 (d - 1) 0 _ hg (by omega)]
              cases hc : doBuildF fuel r2 d tg with
              | error e => simp [hc] at h
              | ok q2 =>
                simp only [hc] at h
                simp only [ih fuel'' r2 d tg q2 hc (by omega)]
                exact h

/-- Appending extra bytes after a run that stopped with a nonempty
remainder (i.e. that broke on an end-group tag rather than exhausting the
buffer, at every level) does not disturb the run: it parses the same
fields and hands the extra bytes through in its remainder. -/
theorem doBuildF_append :
    ∀ fuel (bytes s : List Nat) (d : Int) (last : Nat) raw srt gd rem,
      doBuildF fuel bytes d last = .ok (raw, srt, gd, rem) → rem ≠ [] →
      doBuildF fuel (bytes ++ s) d last = .ok (raw, srt, gd, rem ++ s) := by
  intro fuel
  induction fuel with
  | zero =>
    intro bytes s d last raw srt gd rem h _
    exact absurd h (by simp [doBuildF])
  | succ fuel ih =>
    intro bytes s d last raw srt gd rem h hne
    rw [doBuildF] at h ⊢
    cases hstep : parseFieldStep bytes with
    | error e => simp [hstep] at h
    | ok st =>
      cases st with
      | atEnd =>
        simp only [hstep, Except.ok.injEq, Prod.mk.injEq] at h
        exact absurd h.2.2.2.symm hne
      | endGroup r1 =>
        have hstep2 := parseFieldStep_append s hstep
          (by intro hc; exact FieldStep.noConfusion hc)
        simp only [FieldStep.addTail] at hstep2
        simp only [hstep2]
        simp only [hstep, Except.ok.injEq, Prod.mk.injEq] at h
        rw [← h.1, ← h.2.1, ← h.2.2.1, ← h.2.2.2]
      | plain f r1 =>
        have hstep2 := parseFieldStep_append s hstep
          (by intro hc; exact FieldStep.noConfusion hc)
        simp only [FieldStep.addTail] at hstep2
        simp only [hstep2]
        simp only [hstep] at h
        cases hrec : doBuildF fuel r1 d f.tag with
        | error e => simp [hrec] at h
        | ok q =>
          obtain ⟨raw2, srt2, gd2, rem2⟩ := q
          simp only [hrec, Except.ok.injEq, Prod.mk.injEq] at h
          have hrec2 := ih r1 s d f.tag raw2 srt2 gd2 rem2 hrec
            (by rw [h.2.2.2]; exact hne)
          simp only [hrec2]
          rw [← h.1, ← h.2.1, ← h.2.2.1, ← h.2.2.2]
      | groupStart tg r1 =>
        have hstep2 := parseFieldStep_append s hstep
          (by intro hc; exact FieldStep.noConfusion hc)
        simp only [FieldStep.addTail] at hstep2
        simp only [hstep2]
        simp only [hstep] at h
        split at h
        · exact absurd h (by simp)
        · rename_i hd
          rw [if_neg hd]
          cases hg : doBuildF fuel r1 (d - 1) 0 with
          | error e => simp [hg] at h
          | ok q =>
            obtain ⟨graw, gsrt, ggd, r2⟩ := q
            simp only [hg] at h
            cases hc : doBuildF fuel r2 d tg with
            | error e => simp [hc] at h
            | ok q2 =>
              obtain ⟨raw2, srt2, gd2, rem2⟩ := q2
              simp only [hc, Except.ok.injEq, Prod.mk.injEq] at h
              have hrl := doBuildF_rem_length fuel r2 d tg raw2 srt2 gd2 rem2 hc
              have hr2ne : r2 ≠ [] := by
                intro hr2
                rw [hr2] at hrl
                simp only [List.length_nil, Nat.le_zero, List.length_eq_zero] at hrl
                rw [h.2.2.2] at hrl
                exact hne hrl
              have hg2 := ih r1 s (d - 1) 0 graw gsrt ggd r2 hg hr2ne
              have hc2 := ih r2 s d tg raw2 srt2 gd2 rem2 hc
                (by rw [h.2.2.2]; exact hne)
              simp only [hg2, hc2]
              rw [← h.1, ← h.2.1, ← h.2.2.1, ← h.2.2.2]

/-- Inverting a successful run whose field list starts with `f`: the run
decoded `f` in its first iteration, either as a complete non-group field
(`plain` step) or as a group (`groupStart` step, with the depth guard
passed, an inner run for the payload and a continuation after it). -/
theorem doBuildF_ok_cons_inv :
    ∀ fuel (bytes : List Nat) (d : Int) (last : Nat) f raw srt gd rem,
      doBuildF fuel bytes d last = .ok (f :: raw, srt, gd, rem) →
      ∃ fuel', fuel = fuel' + 1 ∧
        ((∃ r1 srt', parseFieldStep bytes = .ok (.plain f r1) ∧
            doBuildF fuel' r1 d f.tag = .ok (raw, srt', gd, rem) ∧
            srt = (decide (last ≤ f.tag) && srt')) ∨
         (∃ tg r1 graw gsrt ggd r2 gdr srt',
            parseFieldStep bytes = .ok (.groupStart tg r1) ∧
            ¬ d - 1 = 0 ∧
            doBuildF fuel' r1 (d - 1) 0 = .ok (graw, gsrt, ggd, r2) ∧
            doBuildF fuel' r2 d tg = .ok (raw, srt', gdr, rem) ∧
            f = .group tg (maybeSort graw gsrt) ∧
            srt = (decide (last ≤ tg) && srt') ∧
            gd = max (1 + ggd) gdr)) := by
  intro fuel bytes d last f raw srt gd rem h
  match fuel with
  | 0 => exact absurd h (by simp [doBuildF])
  | fuel + 1 =>
    rw [doBuildF] at h
    cases hstep : parseFieldStep bytes with
    | error e => simp [hstep] at h
    | ok st =>
      cases st with
      | atEnd => simp [hstep] at h
      | endGroup r1 => simp [hstep] at h
      | plain f0 r1 =>
        simp only [hstep] at h
        cases hrec : doBuildF fuel r1 d f0.tag with
        | error e => simp [hrec] at h
        | ok q =>
          obtain ⟨raw2, srt2, gd2, rem2⟩ := q
          simp only [hrec, Except.ok.injEq, Prod.mk.injEq, List.cons.injEq] at h
          obtain ⟨⟨hf, hraw⟩, hsrt, hgd, hrem⟩ := h
          subst hf
          refine ⟨fuel, rfl, .inl ⟨r1, srt2, rfl, ?_, hsrt.symm⟩⟩
          rw [hrec, hraw, hgd, hrem]
      | groupStart tg r1 =>
        simp only [hstep] at h
        split at h
        · simp at h
        · rename_i hd
          cases hg : doBuildF fuel r1 (d - 1) 0 with
          | error e => simp [hg] at h
          | ok q =>
            obtain ⟨graw, gsrt, ggd, r2⟩ := q
            simp only [hg] at h
            cases hc : doBuildF fuel r2 d tg with
            | error e => simp [hc] at h
            | ok q2 =>
              obtain ⟨raw2, srt2, gd2, rem2⟩ := q2
              simp only [hc, Except.ok.injEq, Prod.mk.injEq, List.cons.injEq] at h
              obtain ⟨⟨hf, hraw⟩, hsrt, hgd, hrem⟩ := h
              refine ⟨fuel, rfl, .inr ⟨tg, r1, graw, gsrt, ggd, r2, gd2, srt2,
                rfl, hd, hg, ?_, hf.symm, hsrt.symm, hgd.symm⟩⟩
              rw [hc, hraw, hrem]

theorem doBuildF_ok_varint_inv :
    ∀ fuel (bytes : List Nat) (d : Int) (last t v : Nat) raw srt gd rem,
      doBuildF fuel bytes d last = .ok (.varint t v :: raw, srt, gd, rem) →
      ∃ fuel' r1 srt', fuel = fuel' + 1 ∧
        parseFieldStep bytes = .ok (.plain (.varint t v) r1) ∧
        doBuildF fuel' r1 d t = .ok (raw, srt', gd, rem) ∧
        srt = (decide (last ≤ t) && srt') := by
  intro fuel bytes d last t v raw srt gd rem h
  match fuel with
  | 0 => exact absurd h (by simp [doBuildF])
  | fuel + 1 =>
    rw [doBuildF] at h
    cases hstep : parseFieldStep bytes with
    | error e => simp [hstep] at h
    | ok st =>
      cases st with
      | atEnd => simp [hstep] at h
      | endGroup r1 => simp [hstep] at h
      | plain f r1 =>
        simp only [hstep] at h
        cases hrec : doBuildF fuel r1 d f.tag with
        | error e => simp [hrec] at h
        | ok q =>
          obtain ⟨raw', srt', gd', rem'⟩ := q
          simp only [hrec, Except.ok.injEq, Prod.mk.injEq, List.cons.injEq] at h
          obtain ⟨⟨hf, hraw⟩, hsrt, hgd, hrem⟩ := h
          subst hf
          refine ⟨fuel, r1, srt', rfl, rfl, ?_, ?_⟩
          · rw [show UnknownField.tag (.varint t v) = t from rfl] at hrec
            rw [hrec, hraw, hgd, hrem]
          · rw [← hsrt]
            rfl
      | groupStart tag r1 =>
        simp only [hstep] at h
        split at h
        · simp at h
        · cases hg : doBuildF fuel r1 (d - 1) 0 with
          | error e => simp [hg] at h
          | ok q =>
            obtain ⟨graw, gsrt, ggd, r2⟩ := q
            simp only [hg] at h
            cases hrec : doBuildF fuel r2 d tag with
            | error e => simp [hrec] at h
            | ok q2 =>
              obtain ⟨raw', srt', gd', rem'⟩ := q2
              simp [hrec] at h

theorem doBuildF_ok_nil_inv :
    ∀ fuel (bytes : List Nat) (d : Int) (last : Nat) srt gd rem,
      doBuildF fuel bytes d last = .ok ([], srt, gd, rem) →
      srt = true ∧ gd = 0 ∧
        ((bytes = [] ∧ rem = []) ∨ parseFieldStep bytes = .ok (.endGroup rem)) := by
  intro fuel bytes d last srt gd rem h
  match fuel with
  | 0 => exact absurd h (by simp [doBuildF])
  | fuel + 1 =>
    rw [doBuildF] at h
    cases hstep : parseFieldStep bytes with
    | error e => simp [hstep] at h
    | ok st =>
      cases st with
      | atEnd =>
        simp only [hstep, Except.ok.injEq, Prod.mk.injEq] at h
        exact ⟨h.2.1.symm, h.2.2.1.symm, .inl ⟨parseFieldStep_atEnd hstep, h.2.2.2.symm⟩⟩
      | endGroup r1 =>
        simp only [hstep, Except.ok.injEq, Prod.mk.injEq] at h
        refine ⟨h.2.1.symm, h.2.2.1.symm, .inr ?_⟩
        rw [← h.2.2.2]
      | plain f r1 =>
        simp only [hstep] at h
        cases hrec : doBuildF fuel r1 d f.tag with
        | error e => simp [hrec] at h
        | ok q =>
          obtain ⟨raw', srt', gd', rem'⟩ := q
          simp [hrec] at h
      | groupStart tag r1 =>
        simp only [hstep] at h
        split at h
        · simp at h
        · cases hg : doBuildF fuel r1 (d - 1) 0 with
          | error e => simp [hg] at h
          | ok q =>
            obtain ⟨graw, gsrt, ggd, r2⟩ := q
            simp only [hg] at h
            cases hrec : doBuildF fuel r2 d tag with
            | error e => simp [hrec] at h
            | ok q2 =>
              obtain ⟨raw', srt', gd', rem'⟩ := q2
              simp [hrec] at h

theorem upb_UnknownFields_Build_ok_inv {bytes : List Nat} {d : Int} {fs gd}
    (h : upb_UnknownFields_Build bytes d = .ok (fs, gd)) :
    ∃ raw srt, upb_UnknownFields_DoBuild bytes d 0 = .ok (raw, srt, gd, []) ∧
      maybeSort raw srt = fs := by
  rw [upb_UnknownFields_Build] at h
  cases hdb : upb_UnknownFields_DoBuild bytes d 0 with
  | error e => simp [hdb] at h
  | ok q =>
    obtain ⟨raw, srt, gd', rem⟩ := q
    simp only [hdb] at h
    split at h
    · rename_i hrem
      simp only [Except.ok.injEq, Prod.mk.injEq] at h
      subst hrem
      refine ⟨raw, srt, ?_, h.1⟩
      rw [h.2]
    · simp at h

theorem upb_UnknownFields_Build_of_doBuild {bytes : List Nat} {d : Int} {raw srt gd}
    (h : upb_UnknownFields_DoBuild bytes d 0 = .ok (raw, srt, gd, [])) :
    upb_UnknownFields_Build bytes d = .ok (maybeSort raw srt, gd) := by
  rw [upb_UnknownFields_Build]
  simp [h]

theorem upb_UnknownFields_Build_of_error {bytes : List Nat} {d : Int} {e}
    (h : upb_UnknownFields_DoBuild bytes d 0 = .error e) :
    upb_UnknownFields_Build bytes d = .error e := by
  rw [upb_UnknownFields_Build]
  simp [h]

theorem upb_UnknownFields_IsEqual_iff :
    ∀ l1 l2 : List UnknownField,
      upb_UnknownFields_IsEqual l1 l2 = true ↔
        l1.length = l2.length ∧
          ∀ i (h1 : i < l1.length) (h2 : i < l2.length),
            upb_UnknownField_IsEqual (l1.get ⟨i, h1⟩) (l2.get ⟨i, h2⟩) = true := by
  intro l1
  induction l1 with
  | nil =>
    intro l2
    cases l2 with
    | nil => simp [upb_UnknownFields_IsEqual]
    | cons b bs => simp [upb_UnknownFields_IsEqual]
  | cons a as ih =>
    intro l2
    cases l2 with
    | nil => simp [upb_UnknownFields_IsEqual]
    | cons b bs =>
      rw [upb_UnknownFields_IsEqual, Bool.and_eq_true]
      constructor
      · intro ⟨h1, h2⟩
        obtain ⟨hlen, hall⟩ := (ih bs).mp h2
        refine ⟨by simp [hlen], ?_⟩
        intro i hi1 hi2
        cases i with
        | zero => simpa using h1
        | succ i =>
          simpa using hall i (by simpa using hi1) (by simpa using hi2)
      · intro ⟨hlen, hall⟩
        refine ⟨by simpa using hall 0 (by simp) (by simp), (ih bs).mpr ⟨by simpa using hlen, ?_⟩⟩
        intro i hi1 hi2
        simpa using hall (i + 1) (by simpa using hi1) (by simpa using hi2)

/-- Soundness of the comparator, both members of the mutual recursion at
once, by induction on a size bound: every payload comparison in
`upb_UnknownField_IsEqual` is an exact equality test (and the group arm
recurses), so a `true` verdict forces structural equality. -/
theorem upb_IsEqual_sound_aux :
    ∀ n : Nat,
      (∀ f g : UnknownField, sizeOf f ≤ n →
        upb_UnknownField_IsEqual f g = true → f = g) ∧
      (∀ l1 l2 : List UnknownField, sizeOf l1 ≤ n →
        upb_UnknownFields_IsEqual l1 l2 = true → l1 = l2) := by
  intro n
  induction n with
  | zero =>
    constructor
    · intro f g hsz _
      exact absurd hsz (by cases f <;> simp)
    · intro l1 l2 hsz _
      exact absurd hsz (by cases l1 <;> simp)
  | succ n ih =>
    constructor
    · intro f g hsz hfe
      cases f with
      | varint t1 v1 =>
        cases g <;> simp [upb_UnknownField_IsEqual] at hfe
        rw [hfe.1, hfe.2]
      | fixed64 t1 v1 =>
        cases g <;> simp [upb_UnknownField_IsEqual] at hfe
        rw [hfe.1, hfe.2]
      | fixed32 t1 v1 =>
        cases g <;> simp [upb_UnknownField_IsEqual] at hfe
        rw [hfe.1, hfe.2]
      | delimited t1 s1 =>
        cases g <;> simp [upb_UnknownField_IsEqual] at hfe
        rw [hfe.1, hfe.2]
      | group t1 g1 =>
        cases g with
        | varint t2 v2 => simp [upb_UnknownField_IsEqual] at hfe
        | fixed64 t2 v2 => simp [upb_UnknownField_IsEqual] at hfe
        | fixed32 t2 v2 => simp [upb_UnknownField_IsEqual] at hfe
        | delimited t2 s2 => simp [upb_UnknownField_IsEqual] at hfe
        | group t2 g2 =>
          rw [upb_UnknownField_IsEqual, Bool.and_eq_true, beq_iff_eq] at hfe
          have hsz1 : sizeOf g1 ≤ n := by
            simp only [UnknownField.group.sizeOf_spec] at hsz
            omega
          rw [hfe.1, ih.2 g1 g2 hsz1 hfe.2]
    · intro l1 l2 hsz hfe
      cases l1 with
      | nil =>
        cases l2 with
        | nil => rfl
        | cons g s => simp [upb_UnknownFields_IsEqual] at hfe
      | cons f r =>
        cases l2 with
        | nil => simp [upb_UnknownFields_IsEqual] at hfe
        | cons g s =>
          rw [upb_UnknownFields_IsEqual, Bool.and_eq_true] at hfe
          have hsz1 : sizeOf f ≤ n := by
            simp only [List.cons.sizeOf_spec] at hsz
            omega
          have hsz2 : sizeOf r ≤ n := by
            simp only [List.cons.sizeOf_spec] at hsz
            omega
          rw [ih.1 f g hsz1 hfe.1, ih.2 r s hsz2 hfe.2]

/-- `upb_UnknownField_IsEqual` answers `true` only on structurally equal
fields. -/
theorem upb_UnknownField_IsEqual_sound {f g : UnknownField}
    (h : upb_UnknownField_IsEqual f g = true) : f = g :=
  (upb_IsEqual_sound_aux (sizeOf f)).1 f g (le_refl _) h

theorem iConsume_depth (alloc : Nat → Bool) (st : ICtx) :
    (iConsume alloc st).2.depth = st.depth := rfl

theorem iFinish_depth {alloc raw srt st fs st'}
    (h : iFinish alloc raw srt st = .ok (fs, st')) : st'.depth = st.depth := by
  rw [iFinish] at h
  dsimp only [iConsume] at h
  split at h
  · simp at h
  · split at h
    · simp only [Except.ok.injEq, Prod.mk.injEq] at h
      rw [← h.2]
    · split at h
      · split at h
        · simp at h
        · simp only [Except.ok.injEq, Prod.mk.injEq] at h
          rw [← h.2]
      · simp only [Except.ok.injEq, Prod.mk.injEq] at h
        rw [← h.2]

theorem upb_UnknownFields_Grow_depth (alloc : Nat → Bool) (st : ICtx) (cnt cap : Nat) :
    (upb_UnknownFields_Grow alloc st cnt cap).2.1.depth = st.depth := by
  rw [upb_UnknownFields_Grow]
  by_cases hg : cnt = cap
  · rw [if_pos hg]
  · rw [if_neg hg]

theorem iBuildF_depth :
    ∀ fuel alloc (bytes : List Nat) st (last cnt cap : Nat) raw srt st' rem,
      iBuildF fuel alloc bytes st last cnt cap = .ok (raw, srt, st', rem) →
      st'.depth = st.depth := by
  intro fuel
  induction fuel with
  | zero =>
    intro alloc bytes st last cnt cap raw srt st' rem h
    exact absurd h (by simp [iBuildF])
  | succ fuel ih =>
    intro alloc bytes st last cnt cap raw srt st' rem h
    rw [iBuildF] at h
    cases hstep : parseFieldStep bytes with
    | error e => simp [hstep] at h
    | ok s =>
      cases s with
      | atEnd =>
        simp only [hstep, Except.ok.injEq, Prod.mk.injEq] at h
        rw [← h.2.2.1]
      | endGroup r1 =>
        simp only [hstep, Except.ok.injEq, Prod.mk.injEq] at h
        rw [← h.2.2.1]
      | plain f r1 =>
        simp only [hstep] at h
        cases hgrow : upb_UnknownFields_Grow alloc st cnt cap with
        | mk okG q =>
          obtain ⟨stG, capG⟩ := q
          have hstG : stG.depth = st.depth := by
            have := upb_UnknownFields_Grow_depth alloc st cnt cap
            rw [hgrow] at this
            exact this
          simp only [hgrow] at h
          cases okG with
          | false => simp at h
          | true =>
            simp only [Bool.not_true, Bool.false_eq_true, if_false] at h
            cases hrec : iBuildF fuel alloc r1 stG f.tag (cnt + 1) capG with
            | error e => simp [hrec] at h
            | ok q2 =>
              obtain ⟨raw2, srt2, st2, rem2⟩ := q2
              simp only [hrec, Except.ok.injEq, Prod.mk.injEq] at h
              rw [← h.2.2.1, ih _ _ _ _ _ _ _ _ _ _ hrec, hstG]
      | groupStart tag r1 =>
        simp only [hstep] at h
        cases hgrow : upb_UnknownFields_Grow alloc st cnt cap with
        | mk okG q =>
          obtain ⟨stG, capG⟩ := q
          have hstG : stG.depth = st.depth := by
            have := upb_UnknownFields_Grow_depth alloc st cnt cap
            rw [hgrow] at this
            exact this
          simp only [hgrow] at h
          cases okG with
          | false => simp at h
          | true =>
            simp only [Bool.not_true, Bool.false_eq_true, if_false] at h
            split at h
            · exact absurd h (by simp)
            · cases hg : iBuildF fuel alloc r1 { stG with depth := stG.depth - 1 }
                  0 0 0 with
              | error e => simp [hg] at h
              | ok q2 =>
                obtain ⟨graw, gsrt, stI, r2⟩ := q2
                simp only [hg] at h
                cases hfin : iFinish alloc graw gsrt stI with
                | error e => simp [hfin] at h
                | ok q3 =>
                  obtain ⟨gfs, stF⟩ := q3
                  simp only [hfin] at h
                  cases hrec : iBuildF fuel alloc r2 { stF with depth := stF.depth + 1 }
                      tag (cnt + 1) capG with
                  | error e => simp [hrec] at h
                  | ok q4 =>
                    obtain ⟨raw2, srt2, st2, rem2⟩ := q4
                    simp only [hrec, Except.ok.injEq, Prod.mk.injEq] at h
                    have hI := ih _ _ _ _ _ _ _ _ _ _ hg
                    have hF := iFinish_depth hfin
                    have h2 := ih _ _ _ _ _ _ _ _ _ _ hrec
                    have hI2 : stI.depth = stG.depth - 1 := hI
                    have h22 : st2.depth = stF.depth + 1 := h2
                    rw [← h.2.2.1]
                    omega

theorem lor_mod_two_pow_left (x y n : Nat) :
    ((x % 2 ^ n) ||| y) % 2 ^ n = (x ||| y) % 2 ^ n := by
  apply Nat.eq_of_testBit_eq
  intro i
  by_cases h : i < n
  · simp [Nat.testBit_mod_two_pow, Nat.testBit_lor, h]
  · simp [Nat.testBit_mod_two_pow, Nat.testBit_lor, h]

theorem lor_shiftLeft_distrib (a b n : Nat) :
    (a ||| b) <<< n = (a <<< n) ||| (b <<< n) := by
  apply Nat.eq_of_testBit_eq
  intro i
  by_cases h : n ≤ i
  · simp [Nat.testBit_shiftLeft, Nat.testBit_lor, h]
  · simp [Nat.testBit_shiftLeft, Nat.testBit_lor, h]

theorem shiftLeft_shiftLeft_add (a m n : Nat) : (a <<< m) <<< n = a <<< (m + n) := by
  rw [Nat.shiftLeft_eq, Nat.shiftLeft_eq, Nat.shiftLeft_eq, pow_add, mul_assoc]

theorem varintAsm_enumFrom :
    ∀ (l : List Nat) (n : Nat),
      (List.enumFrom n l).foldr
          (fun p acc => acc ||| ((p.2 % 256 % 128) <<< (7 * p.1))) 0 =
        varintAsm l <<< (7 * n) := by
  intro l
  induction l with
  | nil =>
    intro n
    simp [varintAsm]
  | cons b r ih =>
    intro n
    rw [show List.enumFrom n (b :: r) = (n, b) :: List.enumFrom (n + 1) r from rfl]
    rw [List.foldr_cons, ih (n + 1), varintAsm]
    rw [lor_shiftLeft_distrib, shiftLeft_shiftLeft_add, Nat.lor_comm]
    rw [show 7 + 7 * n = 7 * (n + 1) by ring]

theorem specVarintValue_eq_asm (bs : List Nat) :
    specVarintValue bs = varintAsm bs % 2 ^ 64 := by
  rw [specVarintValue, show bs.enum = List.enumFrom 0 bs from rfl, varintAsm_enumFrom bs 0]
  simp

theorem parseVarintLoop_spec :
    ∀ (bs : List Nat) (k bitpos acc : Nat) (hk : k < bs.length),
      (∀ j (hj : j < k), (bs.get ⟨j, lt_trans hj hk⟩) % 256 ≥ 128) →
      (bs.get ⟨k, hk⟩) % 256 < 128 →
      bitpos + 7 * k < 70 →
      parseVarintLoop bs bitpos acc =
        some ((acc ||| (varintAsm (bs.take (k + 1)) <<< bitpos)) % 2 ^ 64,
              bs.drop (k + 1)) := by
  intro bs
  induction bs with
  | nil =>
    intro k bitpos acc hk
    simp at hk
  | cons b r ih =>
    intro k bitpos acc hk hcont hstop hbp
    rw [parseVarintLoop]
    rw [if_neg (by omega)]
    cases k with
    | zero =>
      simp only [List.get] at hstop
      rw [if_neg (by omega)]
      simp [varintAsm]
    | succ k =>
      have hb : b % 256 ≥ 128 := hcont 0 (by omega)
      rw [if_pos hb]
      have hk' : k < r.length := by simpa using hk
      rw [ih k (bitpos + 7) _ hk' (fun j hj => hcont (j + 1) (by omega))
        (by simpa using hstop) (by omega)]
      rw [List.take_succ_cons, List.drop_succ_cons]
      rw [show varintAsm (b :: r.take (k + 1)) =
        (b % 256 % 128) ||| (varintAsm (r.take (k + 1)) <<< 7) from rfl]
      rw [lor_shiftLeft_distrib, shiftLeft_shiftLeft_add]
      rw [lor_mod_two_pow_left]
      rw [Nat.lor_assoc]
      rw [show (7 : Nat) + bitpos = bitpos + 7 by ring]

theorem sortRec_pair (a b : UnknownField) :
    upb_UnknownFields_SortRecursive [a, b] = if a.tag ≤ b.tag then [a, b] else [b, a] := by
  by_cases hab : a.tag ≤ b.tag
  · rw [if_pos hab]
    simp [upb_UnknownFields_SortRecursive, sortRecF, upb_UnknownFields_Merge,
      mergeLoopF, hab]
  · rw [if_neg hab]
    simp [upb_UnknownFields_SortRecursive, sortRecF, upb_UnknownFields_Merge,
      mergeLoopF, hab]

/-- Inverting a two-element result of `maybeSort` when both fields carry
the same tag: the pre-sort order must be the same two fields in the same
order (a two-element merge with equal keys keeps the first run first). -/
theorem maybeSort_pair_same_tag {raw : List UnknownField} {srt : Bool}
    {f1 f2 : UnknownField} (h : maybeSort raw srt = [f1, f2])
    (htag : f1.tag = f2.tag) : raw = [f1, f2] := by
  cases srt with
  | true => simpa [maybeSort] using h
  | false =>
    rw [maybeSort, if_neg (by simp)] at h
    have hlen : raw.length = 2 := by
      have hl := upb_UnknownFields_SortRecursive_length raw
      rw [h] at hl
      simpa using hl.symm
    obtain ⟨a, b, rfl⟩ : ∃ a b, raw = [a, b] := by
      match raw, hlen with
      | [a, b], _ => exact ⟨a, b, rfl⟩
    rw [sortRec_pair] at h
    split at h
    · exact h
    · rename_i hab
      simp only [List.cons.injEq, and_true] at h
      obtain ⟨hb, ha⟩ := h
      subst hb
      subst ha
      rw [htag] at hab
      omega

/-! ## Claim theorems -/

/-- C1 (code bug): permuting the top-level fields of a buffer (tags 8,
40, 72 — all distinct) is expected by the spec to compare `Equal`, but the
code returns `NotEqual`: `upb_UnknownFields_Merge`'s tail copy for a
leftover second run reads from `ptr1` (the start of the second run in the
scratch buffer) instead of `ptr2`, so sorting the permuted field sequence
(tags 40, 72, 8) yields tags 8, 40, 8 — not the ascending 8, 40, 72. -/
theorem c1_merge_tail_copy_bug :
    upb_Message_UnknownFieldsAreEqual [8, 10, 40, 20, 72, 30] [40, 20, 72, 30, 8, 10] 1 =
      some .NotEqual ∧
    upb_UnknownFields_Build [8, 10, 40, 20, 72, 30] 0 =
      .ok ([.varint 8 10, .varint 40 20, .varint 72 30], 0) ∧
    upb_UnknownFields_Build [40, 20, 72, 30, 8, 10] 0 =
      .ok ([.varint 8 10, .varint 40 20, .varint 8 10], 0) ∧
    upb_UnknownFields_SortRecursive [.varint 40 20, .varint 72 30, .varint 8 10] =
      [.varint 8 10, .varint 40 20, .varint 8 10] :=
  ⟨rfl, rfl, rfl, rfl⟩

/-- C2 (counterexample): a buffer with group nesting depth 2, compared
against itself with `max_depth = 1 < 2`, returns `Equal` — the
byte-identical `memcmp` fast path runs before any parsing, so the claim's
"including when the two buffers are byte-identical" is false. -/
theorem c2_counterexample :
    upb_UnknownFields_Build [11, 19, 20, 12] 0 = .ok ([.group 11 [.group 19 []]], 2) ∧
    (1 : Int) < (2 : Int) ∧
    upb_Message_UnknownFieldsAreEqual [11, 19, 20, 12] [11, 19, 20, 12] 1 = some .Equal ∧
    some upb_UnknownCompareResult.Equal ≠ some .MaxDepthExceeded :=
  ⟨rfl, by decide, rfl, by decide⟩

/-- C2 (amended): a well-formed first buffer with group nesting depth `n`,
compared with `1 ≤ max_depth < n` against a non-empty second buffer that
does not satisfy the `memcmp(buf1, buf2, size1) == 0` fast path, yields
`MaxDepthExceeded`. -/
theorem c2_depth_guard (X Y : List Nat) (d : Int) (fs : List UnknownField) (n : Nat)
    (hwf : upb_UnknownFields_Build X 0 = .ok (fs, n))
    (hd1 : 1 ≤ d) (hdn : d < (n : Int)) (hY : Y ≠ [])
    (hm : Y.take X.length ≠ X) :
    upb_Message_UnknownFieldsAreEqual X Y d = some .MaxDepthExceeded := by
  obtain ⟨raw, srt, hdb, hms⟩ := upb_UnknownFields_Build_ok_inv hwf
  have hX : X ≠ [] := by
    intro hx
    subst hx
    rw [show upb_UnknownFields_Build ([] : List Nat) 0 = .ok ([], 0) from rfl] at hwf
    simp only [Except.ok.injEq, Prod.mk.injEq] at hwf
    rw [← hwf.2] at hdn
    simp at hdn
    omega
  have habort : upb_UnknownFields_DoBuild X d 0 = .error .maxDepth := by
    rw [upb_UnknownFields_DoBuild] at hdb ⊢
    exact doBuildF_budget_abort _ X 0 d 0 raw srt n [] (le_refl 0) hdb hd1 (by omega)
  rw [upb_Message_UnknownFieldsAreEqual]
  rw [if_neg (by simp [hX]), if_neg (by simp [hX, hY]), if_neg hm]
  simp only [upb_UnknownFields_Build_of_error habort]

/-- C3: when the first buffer is a non-empty strict byte prefix of the
second, the `memcmp(buf1, buf2, size1)` fast path compares only the first
`size1` bytes and never checks that the lengths agree, so the comparison
returns `Equal`. -/
theorem c3_memcmp_ignores_length (b1 b2 : List Nat) (d : Int)
    (h1 : b1 ≠ []) (hlt : b1.length < b2.length) (hpre : b2.take b1.length = b1) :
    upb_Message_UnknownFieldsAreEqual b1 b2 d = some .Equal := by
  rw [upb_Message_UnknownFieldsAreEqual]
  rw [if_neg (by simp [h1]), if_neg ?_, if_pos hpre]
  have h2 : b2 ≠ [] := by
    intro hb
    rw [hb] at hlt
    simp at hlt
  simp [h1, h2]

theorem c3_witness :
    upb_Message_UnknownFieldsAreEqual [8, 1] [8, 1, 12] 3 = some .Equal :=
  c3_memcmp_ignores_length [8, 1] [8, 1, 12] 3 (by decide) (by decide) rfl

/-- C4 (code bug): when the first growth of the shared sort scratch
buffer fails (allocation attempt 5 here: 0 = arena_new, 1/3 = field-array
growth, 2/4 = per-level FieldSet allocation), the C code stores the NULL
`realloc` result into `ctx->tmp` without a check and the merge writes
through it — a NULL dereference, not the `OutOfMemory` result the claim
promises.  Failures of the checked arena-growth sites (attempt 3) do
produce `OutOfMemory`, and the fully successful run returns `NotEqual`. -/
theorem c4_scratch_realloc_unchecked :
    iCompare (fun n => n != 5) [8, 1] [40, 20, 8, 10] 5 = .nullDeref ∧
    IResult.nullDeref ≠ .val .OutOfMemory ∧
    iCompare (fun n => n != 3) [8, 1] [40, 20, 8, 10] 5 = .val .OutOfMemory ∧
    iCompare (fun _ => true) [8, 1] [40, 20, 8, 10] 5 = .val .NotEqual :=
  ⟨rfl, by decide, rfl, rfl⟩

/-- C6 (counterexample): a nested build whose input starts with an
end-group tag (byte 12 = tag 1, wire type 4) consumes that terminator
itself: the cursor it hands back is `[]`, already past the tag — not
`[12]`, pointing at it, as the claim states. -/
theorem c6_counterexample :
    upb_UnknownFields_DoBuild [12] 5 0 = .ok ([], true, 0, []) ∧
    ([] : List Nat) ≠ [12] :=
  ⟨rfl, by decide⟩

/-- C6 (amended): when the next tag's wire type is end-group, the nested
build itself consumes the terminator tag and returns the cursor
positioned past it; the caller then continues from that cursor without
advancing further. -/
theorem c6_end_group_consumed (bytes : List Nat) (tag : Nat) (r : List Nat)
    (d : Int) (last : Nat)
    (hpv : upb_UnknownFields_ParseVarint bytes = some (tag, r))
    (htag : tag ≤ 2 ^ 32 - 1) (h4 : tag % 8 = 4) :
    upb_UnknownFields_DoBuild bytes d last = .ok ([], true, 0, r) := by
  have hne : bytes ≠ [] := by
    intro hb
    rw [hb] at hpv
    simp [upb_UnknownFields_ParseVarint, parseVarintLoop] at hpv
  have hstep : parseFieldStep bytes = .ok (.endGroup r) := by
    obtain ⟨b, bs, rfl⟩ := List.exists_cons_of_ne_nil hne
    rw [parseFieldStep]
    simp only [hpv]
    rw [if_neg (by omega), if_pos h4]
  rw [upb_UnknownFields_DoBuild]
  exact doBuildF_endGroup_step _ d last hstep

/-- C7: the comparator on two built field lists returns false whenever
the sizes differ, and returns true exactly when the sizes agree and every
position compares equal under `upb_UnknownField_IsEqual` (tag equality
plus payload equality under the wire type implied by the tag: exact
integer equality for varint/fixed64/fixed32, byte-span equality for
delimited, recursive list equality for groups); the C loop short-circuits
at the first mismatching position. -/
theorem c7_comparator (l1 l2 : List UnknownField) :
    (l1.length ≠ l2.length → upb_UnknownFields_IsEqual l1 l2 = false) ∧
    (upb_UnknownFields_IsEqual l1 l2 = true ↔
      l1.length = l2.length ∧
        ∀ i (h1 : i < l1.length) (h2 : i < l2.length),
          upb_UnknownField_IsEqual (l1.get ⟨i, h1⟩) (l2.get ⟨i, h2⟩) = true) := by
  refine ⟨?_, upb_UnknownFields_IsEqual_iff l1 l2⟩
  intro hne
  cases hEq : upb_UnknownFields_IsEqual l1 l2 with
  | false => rfl
  | true => exact absurd ((upb_UnknownFields_IsEqual_iff l1 l2).mp hEq).1 hne

theorem c7_witness :
    upb_UnknownFields_IsEqual [UnknownField.varint 8 1] [] = false ∧
    upb_UnknownFields_IsEqual [UnknownField.varint 8 1] [UnknownField.varint 8 1] = true :=
  ⟨(c7_comparator [UnknownField.varint 8 1] []).1 (by decide),
   (c7_comparator [UnknownField.varint 8 1] [UnknownField.varint 8 1]).2.mpr
     ⟨rfl, fun i h1 h2 => by
       match i, h1 with
       | 0, _ => rfl
       | n + 1, h => exact absurd h (by simp)⟩⟩

/-- C8: comparing any buffer with itself returns `Equal` for any
well-formed buffer and any depth bound at least its nesting depth (in
fact the byte-identical fast path makes this hold unconditionally). -/
theorem c8_reflexivity (X : List Nat) (d : Int) (fs : List UnknownField) (n : Nat)
    (hwf : upb_UnknownFields_Build X 0 = .ok (fs, n)) (_hd : (n : Int) ≤ d) :
    upb_Message_UnknownFieldsAreEqual X X d = some .Equal := by
  cases X with
  | nil => rfl
  | cons b bs =>
    rw [upb_Message_UnknownFieldsAreEqual]
    rw [if_neg (by simp), if_neg (by simp), if_pos (by simp)]

theorem c8_witness : upb_Message_UnknownFieldsAreEqual [8, 150, 1] [8, 150, 1] 1 = some .Equal :=
  c8_reflexivity [8, 150, 1] 1 [.varint 8 150] 0 rfl (by decide)

/-- C9 (counterexample): with `max_depth = 0` the budget entering the
group of `[11, 12]` is decremented to `-1` — strictly below 1 — yet the
`--ctx->depth == 0` test does not fire and the comparison completes with
`NotEqual` instead of aborting with `MaxDepthExceeded`. -/
theorem c9_counterexample :
    upb_UnknownFields_Build [11, 12] 0 = .ok ([.group 11 []], 1) ∧
    upb_Message_UnknownFieldsAreEqual [11, 12] [8, 1] 0 = some .NotEqual ∧
    some upb_UnknownCompareResult.NotEqual ≠ some .MaxDepthExceeded :=
  ⟨rfl, rfl, by decide⟩

theorem c2_depth_guard_witness :
    upb_Message_UnknownFieldsAreEqual [11, 19, 20, 12] [8, 1] 1 = some .MaxDepthExceeded :=
  c2_depth_guard [11, 19, 20, 12] [8, 1] 1 [.group 11 [.group 19 []]] 2
    rfl (by decide) (by decide) (by decide) (by decide)

theorem c6_end_group_consumed_witness :
    upb_UnknownFields_DoBuild [20] 7 3 = .ok ([], true, 0, []) :=
  c6_end_group_consumed [20] 20 [] 7 3 rfl (by decide) (by decide)

/-- C9 (amended): the depth budget is decremented entering each group and
restored on leaving, so a successful build returns the context with its
original depth (first conjunct, on the instrumented model); and for
budgets `max_depth ≥ 1` the build aborts with `MaxDepthExceeded` exactly
when the budget is at most the buffer's group nesting depth, i.e. exactly
when the running budget would reach 0 (second conjunct).  For
`max_depth ≤ 0` the `--ctx->depth == 0` test never fires (the
counterexample shows the claim's "exactly when it would go below 1" fails
there). -/
theorem c9_depth_budget :
    (∀ (alloc : Nat → Bool) (bytes : List Nat) (st : ICtx) fs st' rem,
        iDoBuild alloc bytes st = .ok (fs, st', rem) → st'.depth = st.depth) ∧
    (∀ (X : List Nat) (d : Int) (fs : List UnknownField) (n : Nat),
        upb_UnknownFields_Build X 0 = .ok (fs, n) → 1 ≤ d →
        (upb_UnknownFields_Build X d = .error .maxDepth ↔ d ≤ (n : Int))) := by
  constructor
  · intro alloc bytes st fs st' rem h
    rw [iDoBuild] at h
    cases hl : iBuildF (bytes.length + 1) alloc bytes st 0 0 0 with
    | error e => simp [hl] at h
    | ok q =>
      obtain ⟨raw, srt, st1, rem1⟩ := q
      simp only [hl] at h
      cases hf : iFinish alloc raw srt st1 with
      | error e => simp [hf] at h
      | ok q2 =>
        obtain ⟨fs2, st2⟩ := q2
        simp only [hf, Except.ok.injEq, Prod.mk.injEq] at h
        rw [← h.2.1, iFinish_depth hf, iBuildF_depth _ _ _ _ _ _ _ _ _ _ _ hl]
  · intro X d fs n hwf hd1
    obtain ⟨raw, srt, hdb, hms⟩ := upb_UnknownFields_Build_ok_inv hwf
    rw [upb_UnknownFields_DoBuild] at hdb
    constructor
    · intro habort
      by_contra hgt
      push_neg at hgt
      have hsucc := doBuildF_budget_success _ X 0 d 0 raw srt n [] (le_refl 0) hdb hgt
      have hdd : upb_UnknownFields_DoBuild X d 0 = .ok (raw, srt, n, []) := by
        rw [upb_UnknownFields_DoBuild]
        exact hsucc
      rw [upb_UnknownFields_Build_of_doBuild hdd] at habort
      simp at habort
    · intro hle
      have habort := doBuildF_budget_abort _ X 0 d 0 raw srt n [] (le_refl 0) hdb hd1 hle
      exact upb_UnknownFields_Build_of_error (by rw [upb_UnknownFields_DoBuild]; exact habort)

theorem c9_witness :
    (({ depth := 5, tmpSize := 0, allocN := 3 } : ICtx).depth =
      ({ depth := 5, tmpSize := 0, allocN := 0 } : ICtx).depth) ∧
    upb_UnknownFields_Build [11, 19, 20, 12] 1 = .error .maxDepth :=
  ⟨c9_depth_budget.1 (fun _ => true) [11, 12] { depth := 5, tmpSize := 0, allocN := 0 }
     [.group 11 []] { depth := 5, tmpSize := 0, allocN := 3 } [] rfl,
   (c9_depth_budget.2 [11, 19, 20, 12] 1 [.group 11 [.group 19 []]] 2 rfl
     (by decide)).mpr (by decide)⟩

/-- C5: if `X` encodes the same tag twice, in any wire type — varint,
fixed64, fixed32, delimited or group — with differing values `f1` then
`f2`, and `Y` encodes them in the opposite order, the comparison returns
`NotEqual`: equal tags keep the `sorted` flag true (and even a forced sort
preserves the order of two equal-tag fields), so the position-wise
comparator sees the differing payloads at both positions. -/
theorem c5_duplicate_tag_order (X Y : List Nat) (d : Int) (f1 f2 : UnknownField)
    (gX gY : Nat)
    (hX : upb_UnknownFields_Build X d = .ok ([f1, f2], gX))
    (hY : upb_UnknownFields_Build Y d = .ok ([f2, f1], gY))
    (htag : f1.tag = f2.tag) (hne : f1 ≠ f2) :
    upb_Message_UnknownFieldsAreEqual X Y d = some .NotEqual := by
  obtain ⟨rawX, srtX, hdbX, hmsX⟩ := upb_UnknownFields_Build_ok_inv hX
  obtain ⟨rawY, srtY, hdbY, hmsY⟩ := upb_UnknownFields_Build_ok_inv hY
  have hrawX : rawX = [f1, f2] := maybeSort_pair_same_tag hmsX htag
  have hrawY : rawY = [f2, f1] := maybeSort_pair_same_tag hmsY htag.symm
  subst hrawX
  subst hrawY
  rw [upb_UnknownFields_DoBuild] at hdbX hdbY
  obtain ⟨fuelX, hfuelX, hcase⟩ := doBuildF_ok_cons_inv _ X d 0 f1 _ _ _ _ hdbX
  obtain ⟨fuelY, hfuelY, hcaseY⟩ := doBuildF_ok_cons_inv _ Y d 0 f2 _ _ _ _ hdbY
  have hXne : X ≠ [] := by
    rcases hcase with ⟨r1, srt0, hstep1, _, _⟩ |
      ⟨tg, r1, graw, gsrt, ggd, r2, gdr, srt0, hstep1, _⟩
    all_goals
      intro hx
      rw [hx] at hstep1
      simp [parseFieldStep] at hstep1
  have hYne : Y ≠ [] := by
    rcases hcaseY with ⟨r1, srt0, hstep1, _, _⟩ |
      ⟨tg, r1, graw, gsrt, ggd, r2, gdr, srt0, hstep1, _⟩
    all_goals
      intro hy
      rw [hy] at hstep1
      simp [parseFieldStep] at hstep1
  have hm : Y.take X.length ≠ X := by
    intro htake
    by_cases hlen : Y.length ≤ X.length
    · rw [List.take_of_length_le hlen] at htake
      rw [htake] at hY
      have hAB := hX.symm.trans hY
      simp only [Except.ok.injEq, Prod.mk.injEq, List.cons.injEq, and_true] at hAB
      exact hne hAB.1.1
    · push_neg at hlen
      have hYXS : Y = X ++ Y.drop X.length := by
        have hta := List.take_append_drop X.length Y
        rw [htake] at hta
        exact hta.symm
      rcases hcase with ⟨r1, srt0, hstep1, hrest, hsrt0⟩ |
        ⟨tg, r1, graw, gsrt, ggd, r2, gdr, srt0, hstep1, hdneg, hg, hcont, hf1, hsrt0, hgd0⟩
      · -- the first field of X is a complete non-group field
        have hstepY2 : parseFieldStep Y = .ok (.plain f1 (r1 ++ Y.drop X.length)) := by
          rw [hYXS]
          have hext := parseFieldStep_append (Y.drop X.length) hstep1
            (by intro hc; exact FieldStep.noConfusion hc)
          simpa [FieldStep.addTail] using hext
        have heval := doBuildF_plain_step Y.length d 0 hstepY2
        rw [hdbY] at heval
        cases hcont2 : doBuildF Y.length (r1 ++ Y.drop X.length) d f1.tag with
        | error e =>
          rw [hcont2] at heval
          simp at heval
        | ok q =>
          obtain ⟨raw3, srt3, gd3, rem3⟩ := q
          rw [hcont2] at heval
          simp only [Except.ok.injEq, Prod.mk.injEq, List.cons.injEq] at heval
          exact hne heval.1.1.symm
      · -- the first field of X is a group
        have hr2ne : r2 ≠ [] := by
          intro hr2
          rw [hr2] at hcont
          have hnil := doBuildF_nil_ok fuelX d tg [f2] srt0 gdr [] hcont
          exact absurd hnil.1 (by simp)
        have hg2 := doBuildF_append fuelX r1 (Y.drop X.length) (d - 1) 0
          graw gsrt ggd r2 hg hr2ne
        have hg3 := doBuildF_fuel_mono fuelX Y.length (r1 ++ Y.drop X.length)
          (d - 1) 0 _ hg2 (by omega)
        have hstepY2 : parseFieldStep Y = .ok (.groupStart tg (r1 ++ Y.drop X.length)) := by
          rw [hYXS]
          have hext := parseFieldStep_append (Y.drop X.length) hstep1
            (by intro hc; exact FieldStep.noConfusion hc)
          simpa [FieldStep.addTail] using hext
        have heval := doBuildF_group_step Y.length d 0 hstepY2
        rw [hdbY] at heval
        rw [if_neg hdneg] at heval
        simp only [hg3] at heval
        cases hcont2 : doBuildF Y.length (r2 ++ Y.drop X.length) d tg with
        | error e =>
          simp only [hcont2] at heval
          simp at heval
        | ok q =>
          obtain ⟨raw3, srt3, gd3, rem3⟩ := q
          simp only [hcont2, Except.ok.injEq, Prod.mk.injEq, List.cons.injEq] at heval
          exact hne (hf1.trans heval.1.1.symm)
  have hfeq : upb_UnknownField_IsEqual f1 f2 = false := by
    cases hq : upb_UnknownField_IsEqual f1 f2 with
    | false => rfl
    | true => exact absurd (upb_UnknownField_IsEqual_sound hq) hne
  have hlistEq : upb_UnknownFields_IsEqual [f1, f2] [f2, f1] = false := by
    rw [upb_UnknownFields_IsEqual, hfeq]
    rfl
  rw [upb_Message_UnknownFieldsAreEqual]
  rw [if_neg (by simp [hXne]), if_neg (by simp [hXne, hYne]), if_neg hm]
  simp only [hX, hY]
  simp [hlistEq]

theorem c5_witness :
    upb_Message_UnknownFieldsAreEqual [8, 10, 8, 20] [8, 20, 8, 10] 7 = some .NotEqual :=
  c5_duplicate_tag_order [8, 10, 8, 20] [8, 20, 8, 10] 7 (.varint 8 10) (.varint 8 20)
    0 0 rfl rfl rfl
    (by intro h; injection h with h1 h2; exact absurd h2 (by decide))

/-- C10: for a well-formed varint — the first byte with a clear
continuation (high) bit sits at index `k ≤ 9` — the decoder consumes
exactly the bytes up to and including that byte (at most 10), returns the
cursor advanced past them, and the decoded `u64` is the little-endian
assembly of the 7-bit groups (`specVarintValue`, each byte's low 7 bits
shifted left by 7 times its index, truncated to 64 bits). -/
theorem c10_varint_decoder (bs : List Nat) (k : Nat) (hk : k < bs.length) (hk9 : k ≤ 9)
    (hcont : ∀ j (hj : j < k), (bs.get ⟨j, lt_trans hj hk⟩) % 256 ≥ 128)
    (hstop : (bs.get ⟨k, hk⟩) % 256 < 128) :
    upb_UnknownFields_ParseVarint bs =
      some (specVarintValue (bs.take (k + 1)), bs.drop (k + 1)) ∧ k + 1 ≤ 10 := by
  constructor
  · rw [upb_UnknownFields_ParseVarint]
    rw [parseVarintLoop_spec bs k 0 0 hk hcont hstop (by omega)]
    rw [specVarintValue_eq_asm]
    simp
  · omega

theorem c10_witness :
    upb_UnknownFields_ParseVarint [150, 1, 99] =
      some (specVarintValue [150, 1], [99]) ∧ 1 + 1 ≤ 10 :=
  (c10_varint_decoder [150, 1, 99] 1 (by decide) (by decide)
    (fun j hj => by
      match j, hj with
      | 0, _ => exact (by decide : (150 : Nat) % 256 ≥ 128))
    (by decide))
